import Mathlib

/-!
Verification of the execution-flow rendering and editor-binding logic of
`src/source/WebApp/components/app-code-edit-stable.ts`.

Conventions of the shallow embedding:
* JavaScript line numbers are `Int` (the code subtracts 1 and compares freely).
* A nullable string field is `Option String`; `none` stands for `null` (and,
  where the code only tests truthiness, for an absent value as well).
* A variable that can additionally be `undefined` before first assignment
  (`lastException`) is `Option (Option String)` with `none` = `undefined`.
* The non-null assertion `lastLineNumber!` followed by `- 1` evaluates, in
  JavaScript, to `NaN` when `lastLineNumber` is `undefined`; the arrow field
  `fromLine` is therefore `Option Int`, with `none` standing for that `NaN`.
* A thrown TypeError (reading `.length` of `undefined` from `cm.getLine` on a
  missing line) is modelled by `Option` in the bookmark computation.
-/

/-- Detailed execution step shape: `{ line, skipped, exception, notes }`
(data model of the spec; the TS type `FlowStep` lives outside the excerpt). -/
structure FlowStepDetail where
  line : Int
  skipped : Bool
  exception : Option String
  notes : Option String
deriving DecidableEq, Repr

/-- `FlowStep | number`: a step is either a bare 1-based line number or a
detailed step object. -/
inductive FlowStep where
  | bare (line : Int)
  | detail (d : FlowStepDetail)
deriving DecidableEq, Repr

/-- `(step as FlowStep).skipped` — property access on a bare number yields
`undefined`, which is falsy. -/
def isSkipped : FlowStep → Bool
  | .bare _ => false
  | .detail d => d.skipped

/-- `let lineNumber = step as number; if (typeof step === 'object') lineNumber = step.line`. -/
def lineOf : FlowStep → Int
  | .bare n => n
  | .detail d => d.line

/-- `let exception = null; if (typeof step === 'object') exception = step.exception`. -/
def exceptionOf : FlowStep → Option String
  | .bare _ => none
  | .detail d => d.exception

/-- JavaScript truthiness of a `string|null` value: truthy iff a non-empty string. -/
def truthyStr : Option String → Bool
  | some s => !s.isEmpty
  | none => false

/-- Jump arrow pushed by the scan:
`{ fromLine: lastLineNumber! - 1, toLine: lineNumber - 1, options: { throw: !!lastException } }`.
`fromLine` is `none` when `lastLineNumber` was `undefined` (JS `NaN`);
`isExceptional` embeds the `options.throw` flag. -/
structure JumpArrow where
  fromLine : Option Int
  toLine : Int
  isExceptional : Bool
deriving DecidableEq, Repr

/-- The two mutable scan variables `lastLineNumber` and `lastException`. -/
structure ScanState where
  lastLineNumber : Option Int
  lastException : Option (Option String)
deriving DecidableEq, Repr

/-- Truthiness of the `lastException` variable (`undefined`, `null`, or a string). -/
def isTruthyException : Option (Option String) → Bool
  | some e => truthyStr e
  | none => false

/-- `(lastLineNumber != null && (lineNumber < lastLineNumber || lineNumber - lastLineNumber > 2)) || lastException`. -/
def importantFlag (st : ScanState) (lineNumber : Int) : Bool :=
  (match st.lastLineNumber with
   | some last => decide (lineNumber < last) || decide (lineNumber - last > 2)
   | none => false) || isTruthyException st.lastException

/-- The arrow pushed when `important` holds. -/
def mkArrow (st : ScanState) (lineNumber : Int) : JumpArrow :=
  { fromLine := st.lastLineNumber.map (· - 1)
    toLine := lineNumber - 1
    isExceptional := isTruthyException st.lastException }

/-- One iteration of the `for (const step of steps)` loop, threading the scan
state and the `jumpArrows` accumulator. -/
def flowLoopStep (p : ScanState × List JumpArrow) (step : FlowStep) : ScanState × List JumpArrow :=
  if isSkipped step then p
  else
    let lineNumber := lineOf step
    let exception := exceptionOf step
    let arrows := if importantFlag p.1 lineNumber then p.2 ++ [mkArrow p.1 lineNumber] else p.2
    (⟨some lineNumber, some exception⟩, arrows)

/-- The jump-arrow list produced by the scan loop of `renderExecutionFlow`
(both variables start `undefined`, `jumpArrows` starts empty). -/
def computeJumpArrows (steps : List FlowStep) : List JumpArrow :=
  (steps.foldl flowLoopStep (⟨none, none⟩, [])).2

/-- The scan state after the loop. -/
def scanState (steps : List FlowStep) : ScanState :=
  (steps.foldl flowLoopStep (⟨none, none⟩, [])).1

/-- Recursive restatement of the loop, emitting arrows in order (used to reason
about `computeJumpArrows` by structural induction). -/
def flowScanAux (st : ScanState) : List FlowStep → List JumpArrow
  | [] => []
  | step :: rest =>
    if isSkipped step then flowScanAux st rest
    else
      (if importantFlag st (lineOf step) then [mkArrow st (lineOf step)] else [])
        ++ flowScanAux ⟨some (lineOf step), some (exceptionOf step)⟩ rest

/-! ### Spec-side description of the arrow scan (for the refinement claim C1) -/

/-- Spec-side key of a retained (non-skipped) step: its line and whether its
exception is truthy. -/
def retainedKey (s : FlowStep) : Option (Int × Bool) :=
  if isSkipped s then none else some (lineOf s, truthyStr (exceptionOf s))

/-- The non-skipped steps of a sequence, reduced to (line, truthy-exception). -/
def retainedKeys (steps : List FlowStep) : List (Int × Bool) :=
  steps.filterMap retainedKey

/-- Spec-side arrow derivation, following the spec text: an arrow is emitted at a
step exactly when a previous retained line exists and (the current line is less
than it, or exceeds it by more than 2, or the previous retained step's exception
is truthy); fields are `fromLine = prev - 1`, `toLine = line - 1`,
`isExceptional = previous exception truthy`. -/
def arrowsSpec : Option (Int × Bool) → List (Int × Bool) → List JumpArrow
  | _, [] => []
  | prev, (l, e) :: rest =>
    (match prev with
     | some (pl, pe) =>
       if l < pl ∨ l - pl > 2 ∨ pe = true then
         [{ fromLine := some (pl - 1), toLine := l - 1, isExceptional := pe }]
       else []
     | none => []) ++ arrowsSpec (some (l, e)) rest

/-- The spec-side view of a scan state: the previous retained line together
with the truthiness of the previous retained step's exception. -/
def stateKey (st : ScanState) : Option (Int × Bool) :=
  st.lastLineNumber.map fun l => (l, isTruthyException st.lastException)

/-- Invariant of the scan: a truthy `lastException` can only coexist with an
assigned `lastLineNumber`, since both are assigned together. -/
def ScanInv (st : ScanState) : Prop :=
  isTruthyException st.lastException = true → st.lastLineNumber.isSome = true

/-- Lines strictly increase by at most 2 from a given last line, with no truthy
exceptions. -/
def gentleFrom (prev : Int) : List (Int × Bool) → Bool
  | [] => true
  | (l, e) :: rest => decide (prev < l) && decide (l - prev ≤ 2) && !e && gentleFrom l rest

/-- A retained-key sequence whose lines strictly increase by at most 2, with no
truthy exceptions. -/
def gentleKeys : List (Int × Bool) → Bool
  | [] => true
  | (l, e) :: rest => !e && gentleFrom l rest

/-! ### Grouping helper (`groupToMap`) -/

/-- Modelled from the spec: `groupToMap` (imported from
`../ts/helpers/group-to-map`, a file outside the excerpt) groups a list into a
JavaScript `Map` from key to the list of elements with that key; `Map` entries
are iterated in insertion order, so keys appear in order of first encounter and
each group preserves encounter order. Represented as an association list. -/
def insertGrouped {α κ : Type} [DecidableEq κ] :
    List (κ × List α) → κ → α → List (κ × List α)
  | [], k, a => [(k, [a])]
  | (k₁, as) :: rest, k, a =>
    if k = k₁ then (k₁, as ++ [a]) :: rest else (k₁, as) :: insertGrouped rest k a

/-- Modelled from the spec: see `insertGrouped`. -/
def groupToMap {α κ : Type} [DecidableEq κ] (l : List α) (key : α → κ) :
    List (κ × List α) :=
  l.foldl (fun m a => insertGrouped m (key a) a) []

/-- `map.get(k)`, defaulting to the empty group (first matching entry wins). -/
def groupLookup {α κ : Type} [DecidableEq κ] : List (κ × List α) → κ → List α
  | [], _ => []
  | e :: rest, k => if e.1 = k then e.2 else groupLookup rest k

/-- Keys in order of first encounter (spec-side description of JS `Map`
insertion order). -/
def firstEncounterKeys {κ : Type} [DecidableEq κ] (ks : List κ) : List κ :=
  ks.foldl (fun acc k => if k ∈ acc then acc else acc ++ [k]) []

/-! ### Newline escaping and line-end widgets -/

/-- Replace every occurrence of the character `c` by the character list `r`
(one global single-character regex replacement). -/
def replaceChar (c : Char) (r : List Char) : List Char → List Char
  | [] => []
  | x :: xs => (if x = c then r else [x]) ++ replaceChar c r xs

/-- `escapeNewLines`: `text.replace(/\r/g, '\\r').replace(/\n/g, '\\n')` —
two sequential global replacements over the character sequence. -/
def escapeNewLines (text : String) : String :=
  String.mk (replaceChar '\n' ['\\', 'n'] (replaceChar '\r' ['\\', 'r'] text.data))

/-- Spec-side single-pass escape of one character: carriage return becomes the
two characters backslash-r, line feed becomes backslash-n. -/
def escChar (c : Char) : List Char :=
  if c = '\r' then ['\\', 'r'] else if c = '\n' then ['\\', 'n'] else [c]

/-- Spec-side escape: each character mapped independently by `escChar`. -/
def escapeNewLinesSpec (text : String) : String :=
  String.mk (List.flatten (text.data.map escChar))

/-- The two annotation fields of a detailed step: `['notes', 'exception']`. -/
inductive PartName where
  | notes
  | exception
deriving DecidableEq, Repr

/-- `s[partName]`. -/
def partField (s : FlowStepDetail) : PartName → Option String
  | .notes => s.notes
  | .exception => s.exception

/-- CSS suffix of the part name. -/
def partNameString : PartName → String
  | .notes => "notes"
  | .exception => "exception"

/-- The rendered line-end widget: a span with class
`flow-line-end flow-line-end-<kind>` whose text is the escaped contents joined
with `"; "`. The class string is derived from `kind` (see `widgetClassName`). -/
structure Widget where
  kind : PartName
  textContent : String
deriving DecidableEq, Repr

/-- `widget.className` as set by `createFlowLineEndWidget`. -/
def widgetClassName (w : Widget) : String :=
  "flow-line-end flow-line-end-" ++ partNameString w.kind

/-- `createFlowLineEndWidget(contents, kind)`. -/
def createFlowLineEndWidget (contents : List String) (kind : PartName) : Widget :=
  { kind := kind, textContent := String.intercalate "; " (contents.map escapeNewLines) }

/-- `details.map(s => s[partName]).filter(p => p) as ReadonlyArray<string>`:
map to the field values, keep the truthy ones, view them as strings. -/
def partsOf (details : List FlowStepDetail) (pn : PartName) : List String :=
  ((details.map (fun s => partField s pn)).filter truthyStr).filterMap id

/-- The widget created for one field of one line group, or `none` when
`!parts.length` (the `continue` branch). -/
def fragmentOf (details : List FlowStepDetail) (pn : PartName) : Option Widget :=
  let parts := partsOf details pn
  if parts.isEmpty then none else some (createFlowLineEndWidget parts pn)

/-- Spec-side description of one rendered fragment: take the field values in
encounter order, drop empty or absent ones, escape each character-by-character,
join with `"; "`; `none` when no non-empty value exists. -/
def fragmentTextSpec (vals : List (Option String)) : Option String :=
  let kept := vals.filterMap fun v =>
    match v with
    | some s => if s.isEmpty then none else some s
    | none => none
  if kept.isEmpty then none
  else some (String.intercalate "; " (kept.map escapeNewLinesSpec))

/-! ### Annotation bookmarks -/

/-- A CodeMirror bookmark created by `cm.setBookmark({ line, ch }, { widget })`. -/
structure Bookmark where
  line : Int
  ch : Nat
  widget : Widget
deriving DecidableEq, Repr

/-- `cm.getLine(n)`: the document line at 0-based index `n`, `undefined` when
out of range. The document is the list of its lines. -/
def getLine (doc : List String) (i : Int) : Option String :=
  if i < 0 then none else doc.get? i.toNat

/-- `typeof step === 'object'`. -/
def isDetail : FlowStep → Bool
  | .bare _ => false
  | .detail _ => true

/-- `typeof s === 'object'` filter: the detailed steps, in encounter order
(skipped ones included). -/
def getDetail : FlowStep → Option FlowStepDetail
  | .bare _ => none
  | .detail d => some d

/-- `steps.filter(s => typeof s === 'object')`. -/
def detailedSteps (steps : List FlowStep) : List FlowStepDetail :=
  steps.filterMap getDetail

/-- `groupToMap(steps.filter(...), s => s.line)`. -/
def detailsByLine (steps : List FlowStep) : List (Int × List FlowStepDetail) :=
  groupToMap (detailedSteps steps) FlowStepDetail.line

/-- The bookmarks pushed for one `[lineNumber, details]` entry: read the line
text (`cm.getLine(cmLineNumber).length` throws when the line is missing —
modelled as `none`), then create the notes fragment and the exception fragment
in that order when non-empty. -/
def lineBookmarks (doc : List String) (entry : Int × List FlowStepDetail) :
    Option (List Bookmark) :=
  match getLine doc (entry.1 - 1) with
  | none => none
  | some lineText =>
    some (([PartName.notes, PartName.exception]).filterMap fun pn =>
      (fragmentOf entry.2 pn).map fun w =>
        { line := entry.1 - 1, ch := lineText.length, widget := w })

/-- The `for (const [lineNumber, details] of detailsByLine)` loop, collecting
all pushed bookmarks; `none` when any line read throws. -/
def collectBookmarks (doc : List String) : List (Int × List FlowStepDetail) → Option (List Bookmark)
  | [] => some []
  | g :: rest =>
    match lineBookmarks doc g, collectBookmarks doc rest with
    | some bs, some rest' => some (bs ++ rest')
    | _, _ => none

/-- All annotation bookmarks created by `renderExecutionFlow` for a step
sequence over a document (`some []` immediately when `steps.length === 0`,
before the grouping — the early `return`). -/
def computeBookmarks (steps : List FlowStep) (doc : List String) : Option (List Bookmark) :=
  if steps.isEmpty then some []
  else collectBookmarks doc (detailsByLine steps)

/-! ### Full render over the editor state -/

/-- The decoration-relevant editor state: the live `bookmarks` array, the
jump-arrow layer, the markers cleared so far (a cleared CodeMirror marker is
gone from the display; recorded here to state clearing), and the document. -/
structure EditorState where
  bookmarks : List Bookmark
  arrows : List JumpArrow
  cleared : List Bookmark
  doc : List String
deriving DecidableEq, Repr

/-- `renderExecutionFlow(steps, cm, bookmarks)`: pop and clear every existing
bookmark, compute and install the jump arrows (`cm.setJumpArrows` replaces the
layer wholesale), then create the annotation bookmarks; `none` models the
TypeError thrown on a missing line. -/
def renderExecutionFlow (steps : List FlowStep) (st : EditorState) : Option EditorState :=
  let cleared := st.cleared ++ st.bookmarks.reverse
  let arrows := computeJumpArrows steps
  match computeBookmarks steps st.doc with
  | none => none
  | some bs => some { bookmarks := bs, arrows := arrows, cleared := cleared, doc := st.doc }

/-! ### Editor binding: lazy connect state machine -/

/-- External triggers reaching the mounted component. -/
inductive CodeEditEvent where
  | textEdit
  | languageChange
  | serverOptionsChange
  | serviceUrlChange
deriving DecidableEq, Repr

/-- The lazy-connect bookkeeping: the `initialConnectionRequested` flag and a
count of `this.instance.connect()` calls made through the lazy path. -/
structure BindingState where
  initialConnectionRequested : Bool
  connectCalls : Nat
deriving DecidableEq, Repr

/-- `this.initialConnectionRequested = !this.initialCached`. -/
def initState (initialCached : Bool) : BindingState :=
  { initialConnectionRequested := !initialCached, connectCalls := 0 }

/-- `connectIfInitialWasCached`: return if already requested, otherwise call
`connect()` and set the flag. -/
def connectIfInitialWasCached (st : BindingState) : BindingState :=
  if st.initialConnectionRequested then st
  else { initialConnectionRequested := true, connectCalls := st.connectCalls + 1 }

/-- Effect of each trigger on the lazy-connect state: the `textChange` handler
and the `language`/`serverOptions` watchers call `connectIfInitialWasCached`;
the `serviceUrl` watcher runs `recreate`, which sets
`initialConnectionRequested = true` (the replacement instance connects on
creation, not through the lazy path). -/
def handleEvent (st : BindingState) : CodeEditEvent → BindingState
  | .textEdit => connectIfInitialWasCached st
  | .languageChange => connectIfInitialWasCached st
  | .serverOptionsChange => connectIfInitialWasCached st
  | .serviceUrlChange => { st with initialConnectionRequested := true }

/-- Run a sequence of triggers. -/
def runEvents (st : BindingState) (es : List CodeEditEvent) : BindingState :=
  es.foldl handleEvent st

/-! ### Outward event forwarding -/

/-- The underlying-widget events the component listens to. -/
inductive WidgetEvent where
  | slowUpdateWait
  | slowUpdateResult
  | connectionChange
  | textChange
  | serverError
  | cursorActivity
deriving DecidableEq, Repr

/-- Payload shape forwarded with each outward emission. -/
inductive PayloadKind where
  | empty
  | result
  | state
  | textAccessor
  | message
  | offsetAccessor
deriving DecidableEq, Repr

/-- The outward event name `this.$emit(...)` uses for each widget event. -/
def emittedEventName : WidgetEvent → String
  | .slowUpdateWait => "slow-update-wait"
  | .slowUpdateResult => "slow-update-result"
  | .connectionChange => "connection-change"
  | .textChange => "text-change"
  | .serverError => "server-error"
  | .cursorActivity => "cursor-move"

/-- The payload forwarded with each widget event. -/
def emittedPayload : WidgetEvent → PayloadKind
  | .slowUpdateWait => .empty
  | .slowUpdateResult => .result
  | .connectionChange => .state
  | .textChange => .textAccessor
  | .serverError => .message
  | .cursorActivity => .offsetAccessor

/-! ## Lemmas about the arrow scan -/

/-- The loop's accumulated arrow list equals the recursively emitted one. -/
theorem foldl_flowLoop_snd (l : List FlowStep) :
    ∀ (st : ScanState) (acc : List JumpArrow),
      (l.foldl flowLoopStep (st, acc)).2 = acc ++ flowScanAux st l := by
  induction l with
  | nil => intro st acc; simp [flowScanAux]
  | cons x xs ih =>
    intro st acc
    by_cases h : isSkipped x = true
    · simpa [flowLoopStep, flowScanAux, h] using ih st acc
    · by_cases himp : importantFlag st (lineOf x) = true
      · simp [flowLoopStep, flowScanAux, h, himp, ih]
      · simp [flowLoopStep, flowScanAux, h, himp, ih]

theorem computeJumpArrows_eq_aux (steps : List FlowStep) :
    computeJumpArrows steps = flowScanAux ⟨none, none⟩ steps := by
  simpa [computeJumpArrows] using foldl_flowLoop_snd steps ⟨none, none⟩ []

theorem scanInv_init : ScanInv ⟨none, none⟩ := by
  intro h; simp [isTruthyException] at h

theorem scanInv_foldl (l : List FlowStep) :
    ∀ (st : ScanState) (acc : List JumpArrow), ScanInv st →
      ScanInv (l.foldl flowLoopStep (st, acc)).1 := by
  induction l with
  | nil => intro st acc h; simpa using h
  | cons x xs ih =>
    intro st acc h
    by_cases hs : isSkipped x = true
    · rw [List.foldl_cons]
      have hstep : flowLoopStep (st, acc) x = (st, acc) := by simp [flowLoopStep, hs]
      rw [hstep]; exact ih st acc h
    · rw [List.foldl_cons]
      have hstep : (flowLoopStep (st, acc) x).1 = ⟨some (lineOf x), some (exceptionOf x)⟩ := by
        simp [flowLoopStep, hs]
      rcases hp : flowLoopStep (st, acc) x with ⟨st', acc'⟩
      rw [hp] at hstep
      simp only at hstep
      subst hstep
      exact ih _ _ (fun _ => rfl)

theorem stateKey_assigned (ln : Int) (ex : Option String) :
    stateKey ⟨some ln, some ex⟩ = some (ln, truthyStr ex) := rfl

/-- Refinement of the loop against the spec-side arrow derivation, under the
scan invariant. -/
theorem flowScanAux_eq_arrowsSpec (l : List FlowStep) :
    ∀ (st : ScanState), ScanInv st →
      flowScanAux st l = arrowsSpec (stateKey st) (retainedKeys l) := by
  induction l with
  | nil => intro st _; simp [flowScanAux, retainedKeys, arrowsSpec]
  | cons x xs ih =>
    intro st hinv
    cases hs : isSkipped x with
    | true =>
      have hk : retainedKey x = none := by simp [retainedKey, hs]
      calc flowScanAux st (x :: xs) = flowScanAux st xs := by simp [flowScanAux, hs]
        _ = arrowsSpec (stateKey st) (retainedKeys xs) := ih st hinv
        _ = arrowsSpec (stateKey st) (retainedKeys (x :: xs)) := by
              simp [retainedKeys, List.filterMap_cons, hk]
    | false =>
      have hk : retainedKey x = some (lineOf x, truthyStr (exceptionOf x)) := by
        simp [retainedKey, hs]
      have hlhs : flowScanAux st (x :: xs)
          = (if importantFlag st (lineOf x) then [mkArrow st (lineOf x)] else [])
            ++ flowScanAux ⟨some (lineOf x), some (exceptionOf x)⟩ xs := by
        simp [flowScanAux, hs]
      have hrhs : retainedKeys (x :: xs)
          = (lineOf x, truthyStr (exceptionOf x)) :: retainedKeys xs := by
        simp [retainedKeys, List.filterMap_cons, hk]
      rw [hlhs, hrhs]
      have harrow : arrowsSpec (stateKey st)
            ((lineOf x, truthyStr (exceptionOf x)) :: retainedKeys xs)
          = (match stateKey st with
             | some (pl, pe) =>
               if lineOf x < pl ∨ lineOf x - pl > 2 ∨ pe = true then
                 [{ fromLine := some (pl - 1), toLine := lineOf x - 1, isExceptional := pe }]
               else []
             | none => [])
            ++ arrowsSpec (some (lineOf x, truthyStr (exceptionOf x))) (retainedKeys xs) := rfl
      rw [harrow, ← stateKey_assigned (lineOf x) (exceptionOf x),
        ← ih ⟨some (lineOf x), some (exceptionOf x)⟩ (fun _ => rfl)]
      congr 1
      rcases hll : st.lastLineNumber with _ | pl
      · -- no previous retained line: the invariant rules out a truthy exception
        have hex : isTruthyException st.lastException = false := by
          cases hx : isTruthyException st.lastException
          · rfl
          · have := hinv hx; rw [hll] at this; simp at this
        have himp : importantFlag st (lineOf x) = false := by
          simp [importantFlag, hll, hex]
        simp [himp, stateKey, hll]
      · have hkey : stateKey st = some (pl, isTruthyException st.lastException) := by
          simp [stateKey, hll]
        rw [hkey]
        by_cases hc : lineOf x < pl ∨ lineOf x - pl > 2 ∨ isTruthyException st.lastException = true
        · have himp : importantFlag st (lineOf x) = true := by
            simp only [importantFlag, hll]
            rcases hc with hc | hc | hc <;> simp [hc]
          simp [himp, hc, mkArrow, hll]
        · have himp : importantFlag st (lineOf x) = false := by
            push_neg at hc
            have hex : isTruthyException st.lastException = false := by
              cases hx : isTruthyException st.lastException
              · rfl
              · exact absurd hx hc.2.2
            simp only [importantFlag, hll]
            simp [hc.1, hc.2.1, hex]
          simp [himp, hc]

/-- Every arrow the spec-side derivation emits has a defined `fromLine`. -/
theorem arrowsSpec_fromLine_isSome :
    ∀ (ks : List (Int × Bool)) (prev : Option (Int × Bool)) (a : JumpArrow),
      a ∈ arrowsSpec prev ks → a.fromLine.isSome = true := by
  intro ks
  induction ks with
  | nil => intro prev a ha; simp [arrowsSpec] at ha
  | cons k rest ih =>
    intro prev a ha
    rcases k with ⟨l, e⟩
    rcases prev with _ | ⟨pl, pe⟩
    · simp only [arrowsSpec, List.nil_append] at ha
      exact ih (some (l, e)) a ha
    · simp only [arrowsSpec] at ha
      rcases List.mem_append.mp ha with hh | ht
      · split at hh
        · simp at hh; subst hh; rfl
        · simp at hh
      · exact ih (some (l, e)) a ht

theorem arrowsSpec_gentleFrom_nil :
    ∀ (ks : List (Int × Bool)) (l : Int), gentleFrom l ks = true →
      arrowsSpec (some (l, false)) ks = [] := by
  intro ks
  induction ks with
  | nil => intro l _; rfl
  | cons k rest ih =>
    intro l hg
    rcases k with ⟨l₁, e₁⟩
    simp only [gentleFrom, Bool.and_eq_true, decide_eq_true_eq, Bool.not_eq_true'] at hg
    obtain ⟨⟨⟨hlt, hle⟩, he⟩, hrest⟩ := hg
    have hcond : ¬ (l₁ < l ∨ l₁ - l > 2 ∨ false = true) := by
      push_neg
      refine ⟨by omega, by omega, by simp⟩
    subst he
    simp only [arrowsSpec, if_neg hcond, List.nil_append]
    exact ih l₁ hrest

theorem arrowsSpec_gentleKeys_nil (ks : List (Int × Bool)) (h : gentleKeys ks = true) :
    arrowsSpec none ks = [] := by
  rcases ks with _ | ⟨⟨l, e⟩, rest⟩
  · rfl
  · simp only [gentleKeys, Bool.and_eq_true, Bool.not_eq_true'] at h
    obtain ⟨he, hrest⟩ := h
    subst he
    simp only [arrowsSpec, List.nil_append]
    exact arrowsSpec_gentleFrom_nil rest l hrest

/-- Skipped steps do not influence the scan at all. -/
theorem flowScanAux_filter_skipped (l : List FlowStep) :
    ∀ st, flowScanAux st (l.filter fun s => !isSkipped s) = flowScanAux st l := by
  induction l with
  | nil => intro st; rfl
  | cons x xs ih =>
    intro st
    by_cases h : isSkipped x = true
    · simp [List.filter_cons, h, flowScanAux, ih]
    · simp [List.filter_cons, h, flowScanAux, ih]

/-! ## Lemmas about the grouping -/

theorem groupLookup_insertGrouped {α κ : Type} [DecidableEq κ]
    (m : List (κ × List α)) (k : κ) (a : α) (k' : κ) :
    groupLookup (insertGrouped m k a) k'
      = groupLookup m k' ++ if k' = k then [a] else [] := by
  induction m with
  | nil =>
    by_cases h : k' = k
    · subst h; simp [insertGrouped, groupLookup]
    · have h' : ¬ k = k' := fun he => h he.symm
      simp [insertGrouped, groupLookup, h, h']
  | cons e rest ih =>
    rcases e with ⟨k₁, as⟩
    by_cases h1 : k = k₁
    · subst h1
      by_cases h2 : k = k'
      · subst h2; simp [insertGrouped, groupLookup]
      · have h2' : ¬ k' = k := fun he => h2 he.symm
        simp [insertGrouped, groupLookup, h2, h2']
    · by_cases h2 : k₁ = k'
      · subst h2
        have h2' : ¬ k₁ = k := fun he => h1 he.symm
        simp [insertGrouped, groupLookup, h1, h2']
      · simp [insertGrouped, groupLookup, h1, h2, ih]

theorem groupLookup_foldl_insert {α κ : Type} [DecidableEq κ] (l : List α) (key : α → κ) :
    ∀ (m : List (κ × List α)) (k : κ),
      groupLookup (l.foldl (fun m a => insertGrouped m (key a) a) m) k
        = groupLookup m k ++ l.filter (fun a => key a = k) := by
  induction l with
  | nil => intro m k; simp
  | cons x xs ih =>
    intro m k
    rw [List.foldl_cons, ih, groupLookup_insertGrouped]
    by_cases h : key x = k
    · subst h
      simp [List.filter_cons, List.append_assoc]
    · have h' : ¬ k = key x := fun he => h he.symm
      simp [List.filter_cons, h, h']

/-- The group of a key holds exactly the elements with that key, in encounter
order. -/
theorem groupLookup_groupToMap {α κ : Type} [DecidableEq κ] (l : List α) (key : α → κ) (k : κ) :
    groupLookup (groupToMap l key) k = l.filter (fun a => key a = k) := by
  simpa [groupToMap, groupLookup] using groupLookup_foldl_insert l key [] k

theorem keys_insertGrouped {α κ : Type} [DecidableEq κ]
    (m : List (κ × List α)) (k : κ) (a : α) :
    (insertGrouped m k a).map Prod.fst
      = if k ∈ m.map Prod.fst then m.map Prod.fst else m.map Prod.fst ++ [k] := by
  induction m with
  | nil => simp [insertGrouped]
  | cons e rest ih =>
    rcases e with ⟨k₁, as⟩
    by_cases h : k = k₁
    · subst h; simp [insertGrouped]
    · have h' : ¬ k₁ = k := fun he => h he.symm
      by_cases hm : k ∈ rest.map Prod.fst
      · simp [insertGrouped, h, ih, hm, h']
      · simp [insertGrouped, h, ih, hm, h']

theorem keys_foldl_insert {α κ : Type} [DecidableEq κ] (l : List α) (key : α → κ) :
    ∀ m : List (κ × List α),
      ((l.foldl (fun m a => insertGrouped m (key a) a) m)).map Prod.fst
        = (l.map key).foldl (fun acc k => if k ∈ acc then acc else acc ++ [k])
            (m.map Prod.fst) := by
  induction l with
  | nil => intro m; simp
  | cons x xs ih =>
    intro m
    rw [List.foldl_cons, ih, List.map_cons, List.foldl_cons, keys_insertGrouped]

/-- The keys of the grouped map are the input keys in first-encounter order. -/
theorem keys_groupToMap {α κ : Type} [DecidableEq κ] (l : List α) (key : α → κ) :
    (groupToMap l key).map Prod.fst = firstEncounterKeys (l.map key) := by
  simpa [groupToMap, firstEncounterKeys] using keys_foldl_insert l key []

theorem mem_foldl_keyStep {κ : Type} [DecidableEq κ] (ks : List κ) :
    ∀ (acc : List κ) (k : κ),
      (k ∈ ks.foldl (fun acc k => if k ∈ acc then acc else acc ++ [k]) acc)
        ↔ k ∈ acc ∨ k ∈ ks := by
  induction ks with
  | nil => intro acc k; simp
  | cons x xs ih =>
    intro acc k
    rw [List.foldl_cons, ih]
    by_cases h : x ∈ acc
    · by_cases hk : k = x
      · subst hk; simp [h]
      · simp [h, hk]
    · by_cases hk : k = x
      · subst hk; simp [h]
      · simp [h, hk]

/-- Membership in the first-encounter key list is membership in the input. -/
theorem mem_firstEncounterKeys {κ : Type} [DecidableEq κ] (ks : List κ) (k : κ) :
    k ∈ firstEncounterKeys ks ↔ k ∈ ks := by
  rw [firstEncounterKeys, mem_foldl_keyStep]
  simp

/-! ## Lemmas about escaping and fragments -/

theorem replaceChar_append (c : Char) (r : List Char) (l₁ l₂ : List Char) :
    replaceChar c r (l₁ ++ l₂) = replaceChar c r l₁ ++ replaceChar c r l₂ := by
  induction l₁ with
  | nil => simp [replaceChar]
  | cons x xs ih => simp [replaceChar, ih]

/-- The two sequential single-character replacements amount to one
character-by-character escape: the first replacement's output contains no line
feeds where a carriage return stood, so the second pass only touches original
line feeds. -/
theorem escapeNewLines_eq_esc (s : String) :
    escapeNewLines s = escapeNewLinesSpec s := by
  rw [escapeNewLines, escapeNewLinesSpec]
  congr 1
  induction s.data with
  | nil => rfl
  | cons x xs ih =>
    by_cases hr : x = '\r'
    · subst hr
      simp [replaceChar, replaceChar_append, escChar, ih]
    · by_cases hn : x = '\n'
      · subst hn
        simp [replaceChar, replaceChar_append, escChar, ih]
      · simp [replaceChar, replaceChar_append, escChar, hr, hn, ih]

/-- `partsOf` keeps exactly the non-empty string values, in order. -/
theorem partsOf_eq_filterMap (details : List FlowStepDetail) (pn : PartName) :
    partsOf details pn
      = details.filterMap (fun d =>
          match partField d pn with
          | some s => if s.isEmpty then none else some s
          | none => none) := by
  rw [partsOf]
  induction details with
  | nil => rfl
  | cons d ds ih =>
    rcases hf : partField d pn with _ | s
    · simpa [List.filterMap_cons, List.filter_cons, hf, truthyStr] using ih
    · by_cases he : s.isEmpty
      · simpa [List.filterMap_cons, List.filter_cons, hf, truthyStr, he] using ih
      · simpa [List.filterMap_cons, List.filter_cons, hf, truthyStr, he] using ih

theorem mem_partsOf {details : List FlowStepDetail} {d : FlowStepDetail}
    {pn : PartName} {s : String}
    (hd : d ∈ details) (hf : partField d pn = some s) (hne : s.isEmpty = false) :
    s ∈ partsOf details pn := by
  rw [partsOf_eq_filterMap]
  exact List.mem_filterMap.mpr ⟨d, hd, by rw [hf]; simp [hne]⟩

/-! ## Lemmas about the bookmark pass -/

theorem lineBookmarks_isSome (doc : List String) (g : Int × List FlowStepDetail) :
    (lineBookmarks doc g).isSome = true ↔ (getLine doc (g.1 - 1)).isSome = true := by
  rcases h : getLine doc (g.1 - 1) with _ | t
  · simp [lineBookmarks, h]
  · simp [lineBookmarks, h]

theorem collectBookmarks_isSome (doc : List String) :
    ∀ gs : List (Int × List FlowStepDetail),
      (collectBookmarks doc gs).isSome = true
        ↔ ∀ g ∈ gs, (lineBookmarks doc g).isSome = true := by
  intro gs
  induction gs with
  | nil => simp [collectBookmarks]
  | cons g rest ih =>
    rcases h1 : lineBookmarks doc g with _ | bs
    · simp [collectBookmarks, h1]
    · rcases h2 : collectBookmarks doc rest with _ | bs'
      · rw [h2] at ih
        simp only [Option.isSome_none, Bool.false_eq_true, false_iff, not_forall] at ih
        simp only [collectBookmarks, h1, h2]
        simp only [Option.isSome_none, Bool.false_eq_true, false_iff, not_forall]
        obtain ⟨g', hg', hns⟩ := ih
        exact ⟨g', List.mem_cons_of_mem _ hg', hns⟩
      · rw [h2] at ih
        simp only [collectBookmarks, h1, h2]
        simp only [Option.isSome_some, true_iff] at ih ⊢
        intro g' hg'
        rcases List.mem_cons.mp hg' with he | hm
        · subst he; simp [h1]
        · exact ih g' hm

theorem fragmentOf_kind (details : List FlowStepDetail) (pn : PartName) (w : Widget)
    (h : fragmentOf details pn = some w) : w.kind = pn := by
  rw [fragmentOf] at h
  by_cases he : (partsOf details pn).isEmpty
  · simp [he] at h
  · simp only [he, Bool.false_eq_true, if_false] at h
    cases h
    rfl

/-! ## Lemmas about the lazy-connect state machine -/

theorem runEvents_requested (es : List CodeEditEvent) :
    ∀ st : BindingState, st.initialConnectionRequested = true →
      (runEvents st es).connectCalls = st.connectCalls
        ∧ (runEvents st es).initialConnectionRequested = true := by
  induction es with
  | nil => intro st h; exact ⟨rfl, h⟩
  | cons e rest ih =>
    intro st h
    have hstep : handleEvent st e = st ∨
        handleEvent st e = { st with initialConnectionRequested := true } := by
      cases e
      · exact Or.inl (by simp [handleEvent, connectIfInitialWasCached, h])
      · exact Or.inl (by simp [handleEvent, connectIfInitialWasCached, h])
      · exact Or.inl (by simp [handleEvent, connectIfInitialWasCached, h])
      · exact Or.inr rfl
    rcases hstep with hstep | hstep
    · rw [runEvents, List.foldl_cons, hstep]
      exact ih st h
    · rw [runEvents, List.foldl_cons, hstep]
      exact ih _ rfl

theorem runEvents_once_bound (es : List CodeEditEvent) :
    ∀ st : BindingState, st.initialConnectionRequested = false →
      (runEvents st es).connectCalls ≤ st.connectCalls + 1 := by
  induction es with
  | nil => intro st _; exact Nat.le_succ _
  | cons e rest ih =>
    intro st h
    rw [runEvents, List.foldl_cons]
    have htr : handleEvent st e = connectIfInitialWasCached st
        ∨ handleEvent st e = { st with initialConnectionRequested := true } := by
      cases e
      · exact Or.inl rfl
      · exact Or.inl rfl
      · exact Or.inl rfl
      · exact Or.inr rfl
    rcases htr with htr | htr
    · have hc : connectIfInitialWasCached st
          = { initialConnectionRequested := true, connectCalls := st.connectCalls + 1 } := by
        simp [connectIfInitialWasCached, h]
      rw [htr, hc]
      have h3 : (List.foldl handleEvent
            ({ initialConnectionRequested := true, connectCalls := st.connectCalls + 1 }
              : BindingState) rest).connectCalls
          = st.connectCalls + 1 :=
        (runEvents_requested rest
          { initialConnectionRequested := true, connectCalls := st.connectCalls + 1 } rfl).1
      rw [h3]
    · rw [htr]
      have h3 : (List.foldl handleEvent
            ({ st with initialConnectionRequested := true } : BindingState) rest).connectCalls
          = st.connectCalls :=
        (runEvents_requested rest { st with initialConnectionRequested := true } rfl).1
      rw [h3]
      exact Nat.le_succ _

theorem escapeNewLines_funext : escapeNewLines = escapeNewLinesSpec :=
  funext escapeNewLines_eq_esc

/-- The code-side fragment text coincides with the spec-side description. -/
theorem fragmentOf_textContent (details : List FlowStepDetail) (pn : PartName) :
    (fragmentOf details pn).map Widget.textContent
      = fragmentTextSpec (details.map fun d => partField d pn) := by
  have hkept : (details.map fun d => partField d pn).filterMap (fun v =>
      match v with
      | some s => if s.isEmpty then none else some s
      | none => none) = partsOf details pn := by
    rw [List.filterMap_map, partsOf_eq_filterMap]
    rfl
  rw [fragmentTextSpec]
  simp only [hkept]
  by_cases he : (partsOf details pn).isEmpty
  · simp [fragmentOf, he]
  · simp only [fragmentOf, he, Bool.false_eq_true, if_false, Option.map_some]
    rw [createFlowLineEndWidget, escapeNewLines_funext]
    rfl

/-- Bare integer steps never reach the grouping stage. -/
theorem detailedSteps_bare_nil (steps : List FlowStep) :
    detailedSteps (steps.filter fun s => !isDetail s) = [] := by
  induction steps with
  | nil => rfl
  | cons x xs ih =>
    cases x
    · simpa [detailedSteps, List.filter_cons, isDetail, getDetail, List.filterMap_cons] using ih
    · simpa [detailedSteps, List.filter_cons, isDetail] using ih

/-! ## Claim theorems -/

/-- C1: scanning the non-skipped steps left to right, a jump arrow is emitted at
a step exactly when a previous retained line exists and (the current line is
less than it, or exceeds it by more than 2, or the previous retained step's
exception is truthy), with `fromLine` = previous retained line − 1, `toLine` =
current line − 1 and `isExceptional` iff the previous retained exception is
truthy (the `arrowsSpec` characterisation, under which the first retained step
never emits an arrow); consequently a sequence whose retained lines strictly
increase by at most 2 with no exceptions yields no arrows. -/
theorem C1_jump_arrow_scan (steps : List FlowStep) :
    computeJumpArrows steps = arrowsSpec none (retainedKeys steps)
    ∧ (gentleKeys (retainedKeys steps) = true → computeJumpArrows steps = []) := by
  have h1 : computeJumpArrows steps = arrowsSpec none (retainedKeys steps) := by
    rw [computeJumpArrows_eq_aux]
    have h := flowScanAux_eq_arrowsSpec steps ⟨none, none⟩ scanInv_init
    simpa [stateKey] using h
  exact ⟨h1, fun hg => by rw [h1]; exact arrowsSpec_gentleKeys_nil _ hg⟩

/-- C1 witness: a gentle sequence produces no arrows. -/
theorem C1_jump_arrow_scan_witness :
    computeJumpArrows [FlowStep.bare 1, FlowStep.bare 3, FlowStep.bare 4] = [] :=
  (C1_jump_arrow_scan [FlowStep.bare 1, FlowStep.bare 3, FlowStep.bare 4]).2 (by decide)

/-- C2: skipped steps are invisible to the arrow scan (filtering them out
changes nothing), yet a skipped detailed step's non-empty notes or exception
text still reaches its line's annotation parts. -/
theorem C2_skipped_step_asymmetry (steps : List FlowStep) (d : FlowStepDetail)
    (pn : PartName) (s : String)
    (hmem : FlowStep.detail d ∈ steps) (hskip : d.skipped = true)
    (hf : partField d pn = some s) (hne : s.isEmpty = false) :
    computeJumpArrows steps = computeJumpArrows (steps.filter fun x => !isSkipped x)
    ∧ s ∈ partsOf (groupLookup (detailsByLine steps) d.line) pn := by
  constructor
  · rw [computeJumpArrows_eq_aux, computeJumpArrows_eq_aux, flowScanAux_filter_skipped]
  · have hdd : d ∈ detailedSteps steps := by
      rw [detailedSteps]
      exact List.mem_filterMap.mpr ⟨FlowStep.detail d, hmem, rfl⟩
    have hlu : groupLookup (detailsByLine steps) d.line
        = (detailedSteps steps).filter fun x => x.line = d.line := by
      rw [detailsByLine, groupLookup_groupToMap]
    rw [hlu]
    exact mem_partsOf (List.mem_filter.mpr ⟨hdd, by simp⟩) hf hne

/-- C2 witness: the spec's `[1, {line:2,skipped:true,notes:"x"}, 3]` example. -/
theorem C2_skipped_step_asymmetry_witness :
    computeJumpArrows
        [FlowStep.bare 1, FlowStep.detail ⟨2, true, none, some "x"⟩, FlowStep.bare 3]
      = computeJumpArrows
        ([FlowStep.bare 1, FlowStep.detail ⟨2, true, none, some "x"⟩,
          FlowStep.bare 3].filter fun x => !isSkipped x)
    ∧ "x" ∈ partsOf (groupLookup (detailsByLine
        [FlowStep.bare 1, FlowStep.detail ⟨2, true, none, some "x"⟩, FlowStep.bare 3])
        (2 : Int)) PartName.notes :=
  C2_skipped_step_asymmetry
    [FlowStep.bare 1, FlowStep.detail ⟨2, true, none, some "x"⟩, FlowStep.bare 3]
    ⟨2, true, none, some "x"⟩ PartName.notes "x" (by decide) rfl rfl (by decide)

/-- C3: each line's rendered fragment for each of the two fields equals the
field values of the line's detailed steps in encounter order, empties dropped,
carriage returns and line feeds escaped to the literal two-character sequences,
joined with "; ", omitted when no non-empty value exists; and bare integer
steps contribute no annotation text. -/
theorem C3_fragment_text (steps : List FlowStep) (l : Int) (pn : PartName) :
    (fragmentOf (groupLookup (detailsByLine steps) l) pn).map Widget.textContent
        = fragmentTextSpec ((groupLookup (detailsByLine steps) l).map fun d => partField d pn)
    ∧ groupLookup (detailsByLine steps) l
        = (detailedSteps steps).filter (fun d => d.line = l)
    ∧ detailedSteps (steps.filter fun s => !isDetail s) = [] :=
  ⟨fragmentOf_textContent _ pn,
   by rw [detailsByLine, groupLookup_groupToMap],
   detailedSteps_bare_nil steps⟩

/-- C4: rendering an empty sequence yields no arrows and no bookmarks, replaces
the arrow layer with the empty list, and every previously created bookmark ends
up cleared. -/
theorem C4_empty_render (st : EditorState) :
    renderExecutionFlow [] st
        = some { bookmarks := [], arrows := [],
                 cleared := st.cleared ++ st.bookmarks.reverse, doc := st.doc }
    ∧ ∀ b ∈ st.bookmarks, b ∈ st.cleared ++ st.bookmarks.reverse := by
  refine ⟨rfl, fun b hb => ?_⟩
  exact List.mem_append.mpr (Or.inr (List.mem_reverse.mpr hb))

/-- C4 witness: a state with one live bookmark and one arrow is fully cleared. -/
theorem C4_empty_render_witness :
    renderExecutionFlow []
        ⟨[⟨0, 0, ⟨PartName.notes, "t"⟩⟩], [⟨some 0, 1, false⟩], [], []⟩
      = some { bookmarks := [], arrows := [],
               cleared := ([] : List Bookmark) ++ [(⟨0, 0, ⟨PartName.notes, "t"⟩⟩ : Bookmark)].reverse,
               doc := [] }
    ∧ (⟨0, 0, ⟨PartName.notes, "t"⟩⟩ : Bookmark)
        ∈ ([] : List Bookmark) ++ [(⟨0, 0, ⟨PartName.notes, "t"⟩⟩ : Bookmark)].reverse :=
  ⟨(C4_empty_render ⟨[⟨0, 0, ⟨PartName.notes, "t"⟩⟩], [⟨some 0, 1, false⟩], [], []⟩).1,
   (C4_empty_render ⟨[⟨0, 0, ⟨PartName.notes, "t"⟩⟩], [⟨some 0, 1, false⟩], [], []⟩).2
     ⟨0, 0, ⟨PartName.notes, "t"⟩⟩ (by decide)⟩

/-- C5: rendering the same sequence twice leaves the same arrows and the same
annotation bookmarks as rendering it once — no accumulation, since prior
bookmarks are cleared and the arrow layer replaced on every call. -/
theorem C5_render_idempotent (steps : List FlowStep) (st st₁ : EditorState)
    (h : renderExecutionFlow steps st = some st₁) :
    (renderExecutionFlow steps st₁).map EditorState.arrows = some st₁.arrows
    ∧ (renderExecutionFlow steps st₁).map EditorState.bookmarks = some st₁.bookmarks := by
  simp only [renderExecutionFlow] at h
  rcases hb : computeBookmarks steps st.doc with _ | bs
  · rw [hb] at h; exact absurd h (by simp)
  · rw [hb] at h
    simp only [Option.some.injEq] at h
    subst h
    constructor
    · simp [renderExecutionFlow, hb]
    · simp [renderExecutionFlow, hb]

/-- C5 witness: rendering `[1]` twice over a one-line document keeps the empty
decoration set. -/
theorem C5_render_idempotent_witness :
    (renderExecutionFlow [FlowStep.bare 1] ⟨[], [], [], ["a"]⟩).map EditorState.arrows
        = some (⟨[], [], [], ["a"]⟩ : EditorState).arrows
    ∧ (renderExecutionFlow [FlowStep.bare 1] ⟨[], [], [], ["a"]⟩).map EditorState.bookmarks
        = some (⟨[], [], [], ["a"]⟩ : EditorState).bookmarks :=
  C5_render_idempotent [FlowStep.bare 1] ⟨[], [], [], ["a"]⟩ ⟨[], [], [], ["a"]⟩ (by decide)

/-- C6: in lazy-connect mode (`initialCached = true`), the first text edit or
language/server-options change calls connect exactly once and sets the
requested flag; afterwards no run of further triggers ever takes the lazy
connect path again, and over any trigger sequence the lazy connect fires at
most once. -/
theorem C6_lazy_connect_once (e : CodeEditEvent) (es : List CodeEditEvent)
    (he : e ≠ CodeEditEvent.serviceUrlChange) :
    (handleEvent (initState true) e).connectCalls = 1
    ∧ (handleEvent (initState true) e).initialConnectionRequested = true
    ∧ (runEvents (handleEvent (initState true) e) es).connectCalls = 1
    ∧ (runEvents (initState true) es).connectCalls ≤ 1 := by
  have h1 : handleEvent (initState true) e
      = { initialConnectionRequested := true, connectCalls := 1 } := by
    cases e
    · rfl
    · rfl
    · rfl
    · exact absurd rfl he
  refine ⟨by rw [h1], by rw [h1], ?_, ?_⟩
  · rw [h1]
    exact (runEvents_requested es
      { initialConnectionRequested := true, connectCalls := 1 } rfl).1
  · exact runEvents_once_bound es (initState true) rfl

/-- C6 witness: a first edit connects once; later triggers add nothing. -/
theorem C6_lazy_connect_once_witness :
    (handleEvent (initState true) CodeEditEvent.textEdit).connectCalls = 1
    ∧ (handleEvent (initState true) CodeEditEvent.textEdit).initialConnectionRequested = true
    ∧ (runEvents (handleEvent (initState true) CodeEditEvent.textEdit)
        [CodeEditEvent.textEdit, CodeEditEvent.languageChange,
          CodeEditEvent.serverOptionsChange]).connectCalls = 1
    ∧ (runEvents (initState true)
        [CodeEditEvent.textEdit, CodeEditEvent.languageChange,
          CodeEditEvent.serverOptionsChange]).connectCalls ≤ 1 :=
  C6_lazy_connect_once CodeEditEvent.textEdit
    [CodeEditEvent.textEdit, CodeEditEvent.languageChange,
      CodeEditEvent.serverOptionsChange] (by decide)

/-- C7 counterexample: a connection state change is forwarded under the event
name `connection-change`, not `connection-state-change` as the spec lists. -/
theorem C7_connection_event_name_counterexample :
    emittedEventName WidgetEvent.connectionChange = "connection-change"
    ∧ emittedEventName WidgetEvent.connectionChange ≠ "connection-state-change" :=
  ⟨rfl, by decide⟩

/-- C7 (amended): every underlying-widget event is forwarded outward as a
one-way notification with the listed payload, under the names
`slow-update-wait`, `slow-update-result`, `connection-change` (the connection
state change), `text-change`, `server-error` and `cursor-move`. -/
theorem C7_event_forwarding :
    emittedEventName WidgetEvent.slowUpdateWait = "slow-update-wait"
    ∧ emittedPayload WidgetEvent.slowUpdateWait = PayloadKind.empty
    ∧ emittedEventName WidgetEvent.slowUpdateResult = "slow-update-result"
    ∧ emittedPayload WidgetEvent.slowUpdateResult = PayloadKind.result
    ∧ emittedEventName WidgetEvent.connectionChange = "connection-change"
    ∧ emittedPayload WidgetEvent.connectionChange = PayloadKind.state
    ∧ emittedEventName WidgetEvent.textChange = "text-change"
    ∧ emittedPayload WidgetEvent.textChange = PayloadKind.textAccessor
    ∧ emittedEventName WidgetEvent.serverError = "server-error"
    ∧ emittedPayload WidgetEvent.serverError = PayloadKind.message
    ∧ emittedEventName WidgetEvent.cursorActivity = "cursor-move"
    ∧ emittedPayload WidgetEvent.cursorActivity = PayloadKind.offsetAccessor :=
  ⟨rfl, rfl, rfl, rfl, rfl, rfl, rfl, rfl, rfl, rfl, rfl, rfl⟩

/-- C8: the non-null assertion on `lastLineNumber` is safe — after any scan a
truthy `lastException` implies `lastLineNumber` was assigned, and every emitted
arrow has a defined `fromLine`. -/
theorem C8_fromLine_defined (steps : List FlowStep) :
    (isTruthyException (scanState steps).lastException = true →
      (scanState steps).lastLineNumber.isSome = true)
    ∧ ∀ a ∈ computeJumpArrows steps, a.fromLine.isSome = true := by
  constructor
  · exact scanInv_foldl steps ⟨none, none⟩ [] scanInv_init
  · intro a ha
    rw [computeJumpArrows_eq_aux,
      flowScanAux_eq_arrowsSpec steps ⟨none, none⟩ scanInv_init] at ha
    exact arrowsSpec_fromLine_isSome _ _ a (by simpa [stateKey] using ha)

/-- C8 witness: after a step carrying an exception the line is assigned, and
the arrow it triggers has a defined `fromLine`. -/
theorem C8_fromLine_defined_witness :
    (scanState [FlowStep.detail ⟨3, false, some "E", none⟩]).lastLineNumber.isSome = true
    ∧ (JumpArrow.mk (some 2) 3 true).fromLine.isSome = true :=
  ⟨(C8_fromLine_defined [FlowStep.detail ⟨3, false, some "E", none⟩]).1 (by decide),
   (C8_fromLine_defined [FlowStep.detail ⟨3, false, some "E", none⟩, FlowStep.bare 4]).2
     (JumpArrow.mk (some 2) 3 true) (by decide)⟩

/-- C9: annotation widgets are created in deterministic order — lines in order
of first encounter of a detailed step, and within a line the notes fragment
before the exception fragment. -/
theorem C9_deterministic_order (steps : List FlowStep) (doc : List String) :
    (detailsByLine steps).map Prod.fst
        = firstEncounterKeys ((detailedSteps steps).map FlowStepDetail.line)
    ∧ ∀ (g : Int × List FlowStepDetail) (bs : List Bookmark),
        lineBookmarks doc g = some bs →
          (bs.map fun b => b.widget.kind) ∈
            ([[], [PartName.notes], [PartName.exception],
              [PartName.notes, PartName.exception]] : List (List PartName)) := by
  constructor
  · rw [detailsByLine, keys_groupToMap]
  · intro g bs hbs
    rw [lineBookmarks] at hbs
    rcases hg : getLine doc (g.1 - 1) with _ | t
    · rw [hg] at hbs; exact absurd hbs (by simp)
    · rw [hg] at hbs
      simp only [Option.some.injEq] at hbs
      subst hbs
      rcases hn : fragmentOf g.2 PartName.notes with _ | wn
        <;> rcases hx : fragmentOf g.2 PartName.exception with _ | wx
      · simp [List.filterMap_cons, hn, hx]
      · have hk := fragmentOf_kind g.2 PartName.exception wx hx
        simp [List.filterMap_cons, hn, hx, hk]
      · have hk := fragmentOf_kind g.2 PartName.notes wn hn
        simp [List.filterMap_cons, hn, hx, hk]
      · have hk1 := fragmentOf_kind g.2 PartName.notes wn hn
        have hk2 := fragmentOf_kind g.2 PartName.exception wx hx
        simp [List.filterMap_cons, hn, hx, hk1, hk2]

/-- C9 witness: one detailed step with notes renders a single notes widget. -/
theorem C9_deterministic_order_witness :
    (detailsByLine [FlowStep.detail ⟨1, false, none, some "x"⟩]).map Prod.fst
        = firstEncounterKeys
            ((detailedSteps [FlowStep.detail ⟨1, false, none, some "x"⟩]).map
              FlowStepDetail.line)
    ∧ ([Bookmark.mk 0 5 ⟨PartName.notes, "x"⟩].map fun b => b.widget.kind) ∈
        ([[], [PartName.notes], [PartName.exception],
          [PartName.notes, PartName.exception]] : List (List PartName)) :=
  ⟨(C9_deterministic_order [FlowStep.detail ⟨1, false, none, some "x"⟩] ["hello"]).1,
   (C9_deterministic_order [FlowStep.detail ⟨1, false, none, some "x"⟩] ["hello"]).2
     (1, [⟨1, false, none, some "x"⟩]) [Bookmark.mk 0 5 ⟨PartName.notes, "x"⟩] (by decide)⟩

/-- C10: for a non-empty sequence the renderer reads the document line of every
line carrying a detailed step (even one with no notes and no exception), and it
succeeds exactly when all those 1-based lines exist in the document. -/
theorem C10_line_read_precondition (steps : List FlowStep) (doc : List String)
    (h : steps ≠ []) :
    (computeBookmarks steps doc).isSome = true
      ↔ ∀ d ∈ detailedSteps steps, (getLine doc (d.line - 1)).isSome = true := by
  have hne : steps.isEmpty = false := by
    cases steps
    · exact absurd rfl h
    · rfl
  simp only [computeBookmarks, hne, Bool.false_eq_true, if_false]
  rw [collectBookmarks_isSome]
  constructor
  · intro hall d hd
    have hkey : d.line ∈ (detailsByLine steps).map Prod.fst := by
      rw [detailsByLine, keys_groupToMap, mem_firstEncounterKeys]
      exact List.mem_map.mpr ⟨d, hd, rfl⟩
    obtain ⟨g, hg, hfst⟩ := List.mem_map.mp hkey
    have hsome := hall g hg
    rw [lineBookmarks_isSome] at hsome
    rw [← hfst]
    exact hsome
  · intro hall g hg
    rw [lineBookmarks_isSome]
    have hkey : g.1 ∈ (detailsByLine steps).map Prod.fst := List.mem_map.mpr ⟨g, hg, rfl⟩
    rw [detailsByLine, keys_groupToMap, mem_firstEncounterKeys] at hkey
    obtain ⟨d, hd, hdl⟩ := List.mem_map.mp hkey
    rw [← hdl]
    exact hall d hd

/-- C10 witness: a detailed step with no notes and no exception on an existing
line renders successfully. -/
theorem C10_line_read_precondition_witness :
    (computeBookmarks [FlowStep.detail ⟨1, false, none, none⟩] ["a"]).isSome = true :=
  (C10_line_read_precondition [FlowStep.detail ⟨1, false, none, none⟩] ["a"]
    (by decide)).mpr (by decide)
